import Mathlib

/-!
Shallow embedding of `model.py` (WANN-like network with straight-through
estimation).  Tensors are modelled as a shape (list of dimension sizes)
together with a data function from index lists to real numbers; operations
that can raise shape errors in torch return `Option Tensor`.  Weight
matrices are modelled as functions `ℕ → ℕ → ℝ` (row, column).
-/

namespace WannModel

noncomputable section

/-- A tensor: a shape and an entry function on index lists.  Entries at
invalid index lists are junk; all statements quantify over valid indices. -/
structure Tensor where
  shape : List ℕ
  data : List ℕ → ℝ

/-- Validity of an index list for a shape: same length, each coordinate
below the corresponding dimension. -/
def validIdx (s idx : List ℕ) : Prop :=
  List.Forall₂ (fun d i => i < d) s idx

/-- Broadcast two shapes, both given reversed (trailing dimension first),
following torch semantics: align from the right, dimensions must be equal
or one of them must be 1. -/
def bcastRev : List ℕ → List ℕ → Option (List ℕ)
  | [], ys => some ys
  | x :: xs, [] => some (x :: xs)
  | x :: xs, y :: ys =>
    (bcastRev xs ys).bind (fun rest =>
      if x = y then some (x :: rest)
      else if x = 1 then some (y :: rest)
      else if y = 1 then some (x :: rest)
      else none)

/-- Broadcast two shapes (torch broadcasting); `none` on incompatibility. -/
def broadcastShape (s t : List ℕ) : Option (List ℕ) :=
  (bcastRev s.reverse t.reverse).map List.reverse

/-- Map an index of the broadcast result back to an index of an operand of
shape `s`: keep the trailing `s.length` coordinates, sending coordinates of
broadcast (size-1) dimensions to 0. -/
def bcastIndex (s idx : List ℕ) : List ℕ :=
  (List.zip s (idx.drop (idx.length - s.length))).map
    (fun p => if p.1 = 1 then 0 else p.2)

/-- Elementwise binary operation with torch broadcasting. -/
def ewise (f : ℝ → ℝ → ℝ) (a b : Tensor) : Option Tensor :=
  (broadcastShape a.shape b.shape).map (fun s =>
    ⟨s, fun idx => f (a.data (bcastIndex a.shape idx))
                     (b.data (bcastIndex b.shape idx))⟩)

/-- Models `torch.mul` (with broadcasting). -/
def tmul : Tensor → Tensor → Option Tensor := ewise (· * ·)

/-- Models `torch.add` (with broadcasting). -/
def tadd : Tensor → Tensor → Option Tensor := ewise (· + ·)

/-- Elementwise unary map (shape preserved). -/
def tmap (f : ℝ → ℝ) (a : Tensor) : Tensor :=
  ⟨a.shape, fun idx => f (a.data idx)⟩

/-- Models `torch.zeros_like`. -/
def tzerosLike (a : Tensor) : Tensor :=
  ⟨a.shape, fun _ => 0⟩

/-- Models `torch.cat([a, b], dim=-1)`: both tensors must have the same
rank (at least 1) and agree on all leading dimensions. -/
def catLast (a b : Tensor) : Option Tensor :=
  if a.shape.length = b.shape.length ∧ a.shape ≠ [] ∧
      a.shape.dropLast = b.shape.dropLast then
    some ⟨a.shape.dropLast ++ [a.shape.getLastD 0 + b.shape.getLastD 0],
      fun idx =>
        if idx.getLastD 0 < a.shape.getLastD 0 then a.data idx
        else b.data (idx.dropLast ++ [idx.getLastD 0 - a.shape.getLastD 0])⟩
  else none

/-- Length of the python slice `[-k:]` of an axis of size `d` (`-0:` keeps
the whole axis; otherwise at most `d` trailing entries). -/
def sliceLen (k d : ℕ) : ℕ :=
  if k = 0 then d else min k d

/-- Models `t[..., -k:]` (python negative slicing on the last axis). -/
def sliceLast (k : ℕ) (a : Tensor) : Option Tensor :=
  if a.shape ≠ [] then
    some ⟨a.shape.dropLast ++ [sliceLen k (a.shape.getLastD 0)],
      fun idx => a.data (idx.dropLast ++
        [idx.getLastD 0 + (a.shape.getLastD 0 - sliceLen k (a.shape.getLastD 0))])⟩
  else none

/-- Models `torch.nn.Softmax(dim=-1)` applied to a tensor of rank ≥ 1. -/
noncomputable def softmaxLast (a : Tensor) : Option Tensor :=
  if a.shape ≠ [] then
    some ⟨a.shape, fun idx =>
      Real.exp (a.data idx) /
        ∑ j ∈ Finset.range (a.shape.getLastD 0),
          Real.exp (a.data (idx.dropLast ++ [j]))⟩
  else none

/-- Models `torch.nn.Linear(n_in, n_out, bias=False)` applied to `x`:
`y[..., o] = ∑ i, W[o, i] * x[..., i]`; the last dimension of `x` must
equal `n_in`. -/
noncomputable def linearFwd (nIn nOut : ℕ) (W : ℕ → ℕ → ℝ) (x : Tensor) :
    Option Tensor :=
  if x.shape.getLastD 0 = nIn ∧ x.shape ≠ [] then
    some ⟨x.shape.dropLast ++ [nOut],
      fun idx => ∑ i ∈ Finset.range nIn,
        W (idx.getLastD 0) i * x.data (idx.dropLast ++ [i])⟩
  else none

/-! The `Discretizable` mixin (`model.py` lines 12-24): state is the pair
of the continuous weight and the stored snapshot buffer; `effective_weight`
is supplied by each concrete layer as a function of the continuous weight. -/

/-- State of a `Discretizable` layer: continuous weight plus snapshot. -/
structure DState (α : Type) where
  weight : α
  stored_weight : α

/-- Models `Discretizable.store_weight`: `stored_weight.copy_(weight)`. -/
def store_weight {α : Type} (s : DState α) : DState α :=
  { s with stored_weight := s.weight }

/-- Models `Discretizable.discretize_weight`: `store_weight()` followed by
`weight.copy_(effective_weight)` (the effective weight is computed from the
continuous weight, which `store_weight` leaves unchanged). -/
def discretize_weight {α : Type} (eff : α → α) (s : DState α) : DState α :=
  let s1 := store_weight s
  { s1 with weight := eff s1.weight }

/-- Models `Discretizable.restore_weight`: `weight.copy_(stored_weight)`. -/
def restore_weight {α : Type} (s : DState α) : DState α :=
  { s with weight := s.stored_weight }

/-- Models `Discretizable.clip_weight`: in-place `hardtanh`, i.e. clamp
each entry to the interval `[-1, 1]`. -/
def clip_weight_tertiary (w : ℕ → ℕ → ℝ) : ℕ → ℕ → ℝ :=
  fun i j => max (-1) (min 1 (w i j))

/-! The `MultiActivationModule` (`model.py` lines 28-77). -/

/-- Models `torch.relu`. -/
def reluR (x : ℝ) : ℝ := max x 0

/-- Models `torch.sigmoid`. -/
noncomputable def sigmoidR (x : ℝ) : ℝ := 1 / (1 + Real.exp (-x))

/-- Models `torch.tanh`. -/
noncomputable def tanhR (x : ℝ) : ℝ := Real.tanh x

/-- Models the lambda `x ↦ exp(-x² / 2)` (standard gaussian menu entry). -/
noncomputable def gaussianR (x : ℝ) : ℝ := Real.exp (-(x ^ 2) / 2)

/-- Models the lambda `t ↦ (t > 0.0) * 1.0` (hard step menu entry). -/
def stepR (x : ℝ) : ℝ := if 0 < x then 1 else 0

/-- Models `MultiActivationModule.available_act_functions`: the fixed,
ordered menu of named elementwise activation functions. -/
noncomputable def available_act_functions : List (String × (ℝ → ℝ)) :=
  [("relu", reluR),
   ("sigmoid", sigmoidR),
   ("tanh", tanhR),
   ("gaussian (standard)", gaussianR),
   ("step", stepR)]

/-- Models `self.funcs = [f[1] for f in self.available_act_functions]`. -/
noncomputable def funcsList : List (ℝ → ℝ) :=
  available_act_functions.map Prod.snd

/-- Models `torch.zeros((self.n_funcs, n_out))`, the mixture weight of a
freshly constructed `MultiActivationModule` (before `init_weights`). -/
def multiActZeroInit : ℕ → ℕ → ℝ := fun _ _ => 0

/-- Models `coefficients[i, :]`: row `i` of the mixture weight as a 1-D
tensor of shape `[n_out]`. -/
def coeffRow (nOut : ℕ) (Wa : ℕ → ℕ → ℝ) (i : ℕ) : Tensor :=
  ⟨[nOut], fun idx => Wa i (idx.getLastD 0)⟩

/-- Models `MultiActivationModule.forward`: the `reduce` over
`enumerate(self.funcs)` starting from `torch.zeros_like(x)`, each step
adding `act(x) * coefficients[i, :]`. -/
noncomputable def multiActForward (nOut : ℕ) (Wa : ℕ → ℕ → ℝ) (x : Tensor) :
    Option Tensor :=
  funcsList.enum.foldlM
    (fun first act => do
      let p ← tmul (tmap act.2 x) (coeffRow nOut Wa act.1)
      tadd first p)
    (tzerosLike x)

/-- Models `MultiActivationModule.clip_weight`: divide the mixture weight
by the per-column L2 norm along the function axis (`n_funcs = 5`), taken
over exact real arithmetic (Lean division by zero yields zero). -/
noncomputable def clip_weight_multi (w : ℕ → ℕ → ℝ) : ℕ → ℕ → ℝ :=
  fun i j => w i j / Real.sqrt (∑ k ∈ Finset.range 5, w k j ^ 2)

/-- First index attaining the maximum of `w` on `{0, …, n}`: models the
iteration underlying `torch.max(·, 0).indices`, which reports the first
maximal index (a later index replaces the incumbent only when strictly
greater). -/
def argmaxAux (w : ℕ → ℝ) : ℕ → ℕ
  | 0 => 0
  | n + 1 =>
    let a := argmaxAux w n
    if w a < w (n + 1) then n + 1 else a

/-- Models `torch.max(self.weight, 0).indices` for column `j` of the 5-row
mixture weight: first index of the maximal coefficient among rows 0..4. -/
def argmaxCol (w : ℕ → ℕ → ℝ) (j : ℕ) : ℕ :=
  argmaxAux (fun k => w k j) 4

/-- Models `MultiActivationModule.effective_weight`:
`one_hot(torch.max(weight, 0).indices, n_funcs).T.float()`, i.e. entry
`(i, j)` is 1 exactly when `i` is the (first) argmax of column `j`. -/
def effective_weight_multi (w : ℕ → ℕ → ℝ) : ℕ → ℕ → ℝ :=
  fun i j => if i = argmaxCol w j then 1 else 0

/-! The `TertiaryLinear` layer (`model.py` lines 80-98). -/

/-- Models `torch.nn.functional.hardshrink` with threshold `l`:
identity where `|x| > l`, zero otherwise. -/
def hardshrink (l x : ℝ) : ℝ :=
  if l < x ∨ x < -l then x else 0

/-- Models `torch.sign`. -/
def tsign (x : ℝ) : ℝ :=
  if 0 < x then 1 else if x < 0 then -1 else 0

/-- Models `TertiaryLinear.effective_weight`:
`torch.sign(hardshrink(weight, lambd=0.4))`, applied entrywise. -/
def effective_weight_tertiary (w : ℕ → ℕ → ℝ) : ℕ → ℕ → ℝ :=
  fun i j => tsign (hardshrink 0.4 (w i j))

/-! The `ConcatLayer` and the `Model` (`model.py` lines 101-179). -/

/-- Models the expression `self.shared_weight[:, None, None]` for the 1-D
shared-weight tensor used by the repository (a 0-D tensor cannot be sliced
this way, and the repository's shared weight is 1-D): shape `[w]` becomes
shape `[w, 1, 1]`. -/
def indexNoneNone (sw : Tensor) : Option Tensor :=
  match sw.shape with
  | [w] => some ⟨[w, 1, 1], fun idx => sw.data [idx.headD 0]⟩
  | _ => none

/-- Models `ConcatLayer.forward`: the `TertiaryLinear` output times
`shared_weight[:, None, None]`, passed through the activation module, then
concatenated onto the input along the last dimension. -/
noncomputable def concatLayerForward (nIn nOut : ℕ) (Wl Wa : ℕ → ℕ → ℝ)
    (sw : Tensor) (x : Tensor) : Option Tensor := do
  let lin ← linearFwd nIn nOut Wl x
  let swv ← indexNoneNone sw
  let scaled ← tmul lin swv
  let inner ← multiActForward nOut Wa scaled
  catLast x inner

/-- One `ConcatLayer` of the model: its widths and the continuous weights
of its `TertiaryLinear` (`Wl`) and `MultiActivationModule` (`Wa`). -/
structure Block where
  nIn : ℕ
  nOut : ℕ
  Wl : ℕ → ℕ → ℝ
  Wa : ℕ → ℕ → ℝ

/-- Models the construction loop of `Model.__init__`: starting from
`n_in = layer_sizes[0]`, append `ConcatLayer(n_in, n_out)` for each
following size and grow `n_in` by `n_out`.  `wf k` supplies the (random)
initial weights of block `k`. -/
def buildBlocks (wf : ℕ → (ℕ → ℕ → ℝ) × (ℕ → ℕ → ℝ)) :
    ℕ → ℕ → List ℕ → List Block
  | _, _, [] => []
  | k, nIn, o :: rest =>
    ⟨nIn, o, (wf k).1, (wf k).2⟩ :: buildBlocks wf (k + 1) (nIn + o) rest

/-- State of a constructed `Model`: the layer sizes and the blocks. -/
structure ModelState where
  sizes : List ℕ
  blocks : List Block

/-- Models `Model.__init__`: reading `layer_sizes[0]` raises an index
error on an empty size tuple (hence `none`); otherwise the block chain is
built and construction succeeds — note that no minimum length is
validated. -/
def modelInit (wf : ℕ → (ℕ → ℕ → ℝ) × (ℕ → ℕ → ℝ)) (sizes : List ℕ) :
    Option ModelState :=
  match sizes with
  | [] => none
  | s0 :: rest => some ⟨s0 :: rest, buildBlocks wf 0 s0 rest⟩

/-- Application of one block inside `torch.nn.Sequential`. -/
noncomputable def blockStep (sw : Tensor) (t : Tensor) (b : Block) :
    Option Tensor :=
  concatLayerForward b.nIn b.nOut b.Wl b.Wa sw t

/-- Models `Model.forward`: run the sequential block chain, keep the last
`n_out = layer_sizes[-1]` channels, and apply softmax on the last
dimension. -/
noncomputable def modelForward (sw : Tensor) (m : ModelState) (x : Tensor) :
    Option Tensor := do
  let out ← m.blocks.foldlM (blockStep sw) x
  let sliced ← sliceLast (m.sizes.getLastD 0) out
  softmaxLast sliced

/-! A float-aware view of `MultiActivationModule.clip_weight` for the
division step only: the continuous weight entries are finite reals, and
the single IEEE division `weight / norm` is modelled exactly, so that a
zero denominator is visible (`0/0` is NaN, `x/0` with `x ≠ 0` is ±∞). -/

/-- Result of one IEEE-754 division of finite operands. -/
inductive FpVal where
  | fin : ℝ → FpVal
  | posInf : FpVal
  | negInf : FpVal
  | nan : FpVal

/-- IEEE-754 division of two finite reals (exact apart from rounding,
which is irrelevant to finiteness): a zero denominator produces NaN for a
zero numerator and a signed infinity otherwise. -/
noncomputable def fpDivR (x y : ℝ) : FpVal :=
  if y = 0 then
    (if x = 0 then FpVal.nan else if 0 < x then FpVal.posInf else FpVal.negInf)
  else FpVal.fin (x / y)

/-- Models `MultiActivationModule.clip_weight` with the final division
tracked at IEEE-754 precision of non-finiteness: each entry is divided by
its column's L2 norm along the 5-row function axis, with no guard against
a zero norm. -/
noncomputable def clip_weight_multi_fp (w : ℕ → ℕ → ℝ) : ℕ → ℕ → FpVal :=
  fun i j => fpDivR (w i j) (Real.sqrt (∑ k ∈ Finset.range 5, w k j ^ 2))

/-! Helper lemmas about shapes, broadcasting and valid indices. -/

theorem getLastD_snoc (l : List ℕ) (a d : ℕ) : (l ++ [a]).getLastD d = a := by
  rw [List.getLastD_eq_getLast?, List.getLast?_concat]
  rfl

theorem dropLast_snoc (l : List ℕ) (a : ℕ) : (l ++ [a]).dropLast = l := by
  simp

theorem bcastRev_nil_right (xs : List ℕ) : bcastRev xs [] = some xs := by
  cases xs <;> rfl

theorem bcastRev_cons_same (x : ℕ) (xs ys : List ℕ) :
    bcastRev (x :: xs) (x :: ys) = (bcastRev xs ys).map (fun r => x :: r) := by
  cases h : bcastRev xs ys with
  | none => simp [bcastRev, h]
  | some rest => simp [bcastRev, h]

theorem bcastRev_one_right (x : ℕ) (xs ys : List ℕ) :
    bcastRev (x :: xs) (1 :: ys) = (bcastRev xs ys).map (fun r => x :: r) := by
  cases h : bcastRev xs ys with
  | none => simp [bcastRev, h]
  | some rest =>
    by_cases hx : x = 1
    · subst hx; simp [bcastRev, h]
    · simp [bcastRev, h, hx]

theorem bcastRev_self (l : List ℕ) : bcastRev l l = some l := by
  induction l with
  | nil => rfl
  | cons x xs ih => rw [bcastRev_cons_same, ih]; rfl

theorem broadcastShape_self (s : List ℕ) : broadcastShape s s = some s := by
  unfold broadcastShape
  rw [bcastRev_self]
  simp

theorem broadcastShape_snoc_single (p : List ℕ) (n : ℕ) :
    broadcastShape (p ++ [n]) [n] = some (p ++ [n]) := by
  unfold broadcastShape
  have h1 : (p ++ [n]).reverse = n :: p.reverse := by simp
  have h2 : ([n] : List ℕ).reverse = n :: ([] : List ℕ) := rfl
  rw [h1, h2, bcastRev_cons_same, bcastRev_nil_right]
  simp

theorem broadcastShape_with_W11 (a b c : ℕ) :
    broadcastShape [a, b, c] [a, 1, 1] = some [a, b, c] := by
  unfold broadcastShape
  show (bcastRev [c, b, a] [1, 1, a]).map List.reverse = some [a, b, c]
  rw [bcastRev_one_right, bcastRev_one_right, bcastRev_cons_same,
    bcastRev_nil_right]
  rfl

theorem validIdx_length {s idx : List ℕ} (h : validIdx s idx) :
    idx.length = s.length :=
  (List.Forall₂.length_eq h).symm

theorem bcastIndex_self {s idx : List ℕ} (h : validIdx s idx) :
    bcastIndex s idx = idx := by
  unfold bcastIndex
  rw [validIdx_length h, Nat.sub_self, List.drop_zero]
  induction h with
  | nil => rfl
  | @cons d i s1 idx1 hdi htail ih =>
    simp only [List.zip_cons_cons, List.map_cons, ih]
    congr 1
    by_cases hd : d = 1
    · subst hd
      have : i = 0 := Nat.lt_one_iff.mp hdi
      simp [this]
    · simp [hd]

theorem valid_snoc {p : List ℕ} {n : ℕ} {idx : List ℕ}
    (h : validIdx (p ++ [n]) idx) :
    ∃ q i, idx = q ++ [i] ∧ i < n ∧ validIdx p q := by
  induction p generalizing idx with
  | nil =>
    rw [List.nil_append] at h
    cases h with
    | cons hi htail =>
      cases htail
      exact ⟨[], _, rfl, hi, List.Forall₂.nil⟩
  | cons a p1 ih =>
    rw [List.cons_append] at h
    cases h with
    | cons hi htail =>
      obtain ⟨q, i, heq, hin, hq⟩ := ih htail
      exact ⟨_ :: q, i, by rw [heq]; rfl, hin, List.Forall₂.cons hi hq⟩

theorem drop_pred_snoc (q : List ℕ) (i : ℕ) :
    (q ++ [i]).drop ((q ++ [i]).length - 1) = [i] := by
  have h : (q ++ [i]).length - 1 = q.length := by simp
  rw [h, List.drop_left]

theorem bcastIndex_single {p : List ℕ} {n : ℕ} {idx : List ℕ}
    (h : validIdx (p ++ [n]) idx) :
    bcastIndex [n] idx = [idx.getLastD 0] ∧ idx.getLastD 0 < n := by
  obtain ⟨q, i, rfl, hin, _⟩ := valid_snoc h
  rw [getLastD_snoc]
  refine ⟨?_, hin⟩
  unfold bcastIndex
  have hlen : ([n] : List ℕ).length = 1 := rfl
  rw [hlen, drop_pred_snoc]
  by_cases hn : n = 1
  · subst hn
    have : i = 0 := Nat.lt_one_iff.mp hin
    simp [this]
  · simp [hn]

/-! Specification lemmas for the tensor operations. -/

theorem ewise_same_spec (f : ℝ → ℝ → ℝ) (a b : Tensor) (h : b.shape = a.shape) :
    ∃ c, ewise f a b = some c ∧ c.shape = a.shape ∧
      ∀ idx, validIdx a.shape idx → c.data idx = f (a.data idx) (b.data idx) := by
  unfold ewise
  rw [h, broadcastShape_self]
  refine ⟨_, rfl, rfl, ?_⟩
  intro idx hv
  simp only
  rw [bcastIndex_self hv]

theorem ewise_snoc_single_spec (f : ℝ → ℝ → ℝ) (a b : Tensor) (p : List ℕ)
    (n : ℕ) (ha : a.shape = p ++ [n]) (hb : b.shape = [n]) :
    ∃ c, ewise f a b = some c ∧ c.shape = a.shape ∧
      ∀ idx, validIdx a.shape idx →
        c.data idx = f (a.data idx) (b.data [idx.getLastD 0]) := by
  unfold ewise
  rw [ha, hb, broadcastShape_snoc_single]
  refine ⟨_, rfl, rfl, ?_⟩
  intro idx hv
  show f (a.data (bcastIndex (p ++ [n]) idx)) (b.data (bcastIndex [n] idx)) =
    f (a.data idx) (b.data [idx.getLastD 0])
  rw [bcastIndex_self hv, (bcastIndex_single hv).1]

theorem ewise_W11_shape (f : ℝ → ℝ → ℝ) (a b : Tensor) (W bb n : ℕ)
    (ha : a.shape = [W, bb, n]) (hb : b.shape = [W, 1, 1]) :
    ∃ c, ewise f a b = some c ∧ c.shape = [W, bb, n] := by
  unfold ewise
  rw [ha, hb, broadcastShape_with_W11]
  exact ⟨_, rfl, rfl⟩

theorem linearFwd_spec (nIn nOut : ℕ) (W : ℕ → ℕ → ℝ) (x : Tensor)
    (p : List ℕ) (hx : x.shape = p ++ [nIn]) :
    ∃ t, linearFwd nIn nOut W x = some t ∧ t.shape = p ++ [nOut] := by
  unfold linearFwd
  rw [hx]
  rw [if_pos ⟨getLastD_snoc p nIn 0, by simp⟩]
  exact ⟨_, rfl, by rw [dropLast_snoc]⟩

theorem catLast_spec (a b : Tensor) (W bb u v : ℕ)
    (ha : a.shape = [W, bb, u]) (hb : b.shape = [W, bb, v]) :
    ∃ t, catLast a b = some t ∧ t.shape = [W, bb, u + v] := by
  unfold catLast
  rw [ha, hb]
  rw [if_pos ⟨rfl, by simp, rfl⟩]
  exact ⟨_, rfl, rfl⟩

theorem indexNoneNone_spec (sw : Tensor) (w : ℕ) (h : sw.shape = [w]) :
    ∃ v, indexNoneNone sw = some v ∧ v.shape = [w, 1, 1] := by
  simp only [indexNoneNone, h]
  exact ⟨_, rfl, rfl⟩

theorem sliceLast_shape (a : Tensor) (W bb d k : ℕ) (h : a.shape = [W, bb, d]) :
    ∃ t, sliceLast k a = some t ∧ t.shape = [W, bb, sliceLen k d] := by
  unfold sliceLast
  rw [h, if_pos (by simp)]
  exact ⟨_, rfl, rfl⟩

theorem softmaxLast_rows (a : Tensor) (W bb d : ℕ) (hd : 0 < d)
    (h : a.shape = [W, bb, d]) :
    ∃ t, softmaxLast a = some t ∧ t.shape = [W, bb, d] ∧
      ∀ i j : ℕ, (∀ c, 0 ≤ t.data [i, j, c]) ∧
        ∑ c ∈ Finset.range d, t.data [i, j, c] = 1 := by
  unfold softmaxLast
  rw [h, if_pos (by simp)]
  refine ⟨_, rfl, rfl, ?_⟩
  intro i j
  have hD : 0 < ∑ c ∈ Finset.range d, Real.exp (a.data [i, j, c]) :=
    Finset.sum_pos (fun c _ => Real.exp_pos _) ⟨0, Finset.mem_range.mpr hd⟩
  constructor
  · intro c
    exact div_nonneg (Real.exp_pos _).le hD.le
  · have h1 : ([W, bb, d] : List ℕ).getLastD 0 = d := rfl
    have h2 : ∀ x : ℕ, ([i, j, x] : List ℕ).dropLast = ([i, j] : List ℕ) :=
      fun _ => rfl
    have h3 : ∀ y : ℕ, ([i, j] : List ℕ) ++ [y] = [i, j, y] := fun _ => rfl
    simp only [h1, h2, h3]
    rw [← Finset.sum_div]
    exact div_self hD.ne'

theorem some_bind_eq {α β : Type} (a : α) (f : α → Option β) :
    (some a : Option α) >>= f = f a := rfl

theorem multiAct_step_spec (n : ℕ) (Wa : ℕ → ℕ → ℝ) (x acc : Tensor)
    (p : List ℕ) (g : List ℕ → ℝ) (f : ℝ → ℝ) (i : ℕ)
    (hx : x.shape = p ++ [n]) (hacc : acc.shape = x.shape)
    (hg : ∀ idx, validIdx x.shape idx → acc.data idx = g idx) :
    ∃ c, (do
        let q ← tmul (tmap f x) (coeffRow n Wa i)
        tadd acc q) = some c ∧ c.shape = x.shape ∧
      ∀ idx, validIdx x.shape idx →
        c.data idx = g idx + f (x.data idx) * Wa i (idx.getLastD 0) := by
  obtain ⟨q, hq, hqs, hqd⟩ :=
    ewise_snoc_single_spec (· * ·) (tmap f x) (coeffRow n Wa i) p n hx rfl
  obtain ⟨c, hc, hcs, hcd⟩ := ewise_same_spec (· + ·) acc q (hqs.trans hacc.symm)
  refine ⟨c, ?_, hcs.trans hacc, ?_⟩
  · show tmul (tmap f x) (coeffRow n Wa i) >>= (fun q => tadd acc q) = some c
    have hq2 : tmul (tmap f x) (coeffRow n Wa i) = some q := hq
    rw [hq2, some_bind_eq]
    exact hc
  · intro idx hv
    have hv2 : validIdx acc.shape idx := by rw [hacc]; exact hv
    rw [hcd idx hv2, hg idx hv, hqd idx hv]
    rfl

theorem multiAct_spec (n : ℕ) (Wa : ℕ → ℕ → ℝ) (x : Tensor) (p : List ℕ)
    (hx : x.shape = p ++ [n]) :
    ∃ t, multiActForward n Wa x = some t ∧ t.shape = x.shape ∧
      ∀ idx, validIdx x.shape idx → t.data idx =
        reluR (x.data idx) * Wa 0 (idx.getLastD 0) +
        sigmoidR (x.data idx) * Wa 1 (idx.getLastD 0) +
        tanhR (x.data idx) * Wa 2 (idx.getLastD 0) +
        gaussianR (x.data idx) * Wa 3 (idx.getLastD 0) +
        stepR (x.data idx) * Wa 4 (idx.getLastD 0) := by
  obtain ⟨c1, e1, s1, d1⟩ := multiAct_step_spec n Wa x (tzerosLike x) p
    (fun _ => 0) reluR 0 hx rfl (fun _ _ => rfl)
  obtain ⟨c2, e2, s2, d2⟩ := multiAct_step_spec n Wa x c1 p _ sigmoidR 1 hx s1 d1
  obtain ⟨c3, e3, s3, d3⟩ := multiAct_step_spec n Wa x c2 p _ tanhR 2 hx s2 d2
  obtain ⟨c4, e4, s4, d4⟩ := multiAct_step_spec n Wa x c3 p _ gaussianR 3 hx s3 d3
  obtain ⟨c5, e5, s5, d5⟩ := multiAct_step_spec n Wa x c4 p _ stepR 4 hx s4 d4
  refine ⟨c5, ?_, s5, ?_⟩
  · unfold multiActForward
    rw [show funcsList.enum =
      [(0, reluR), (1, sigmoidR), (2, tanhR), (3, gaussianR), (4, stepR)] from rfl]
    simp only [List.foldlM_cons, List.foldlM_nil]
    rw [e1]
    simp only [some_bind_eq]
    rw [e2]
    simp only [some_bind_eq]
    rw [e3]
    simp only [some_bind_eq]
    rw [e4]
    simp only [some_bind_eq]
    rw [e5]
    simp only [some_bind_eq]
    rfl
  · intro idx hv
    rw [d5 idx hv]
    ring

theorem concatLayer_spec (nIn nOut : ℕ) (Wl Wa : ℕ → ℕ → ℝ) (sw x : Tensor)
    (W bb : ℕ) (hsw : sw.shape = [W]) (hx : x.shape = [W, bb, nIn]) :
    ∃ t, concatLayerForward nIn nOut Wl Wa sw x = some t ∧
      t.shape = [W, bb, nIn + nOut] := by
  obtain ⟨lin, hlin, hlins⟩ := linearFwd_spec nIn nOut Wl x [W, bb] hx
  obtain ⟨swv, hswv, hswvs⟩ := indexNoneNone_spec sw W hsw
  obtain ⟨scaled, hsc, hscs⟩ :=
    ewise_W11_shape (· * ·) lin swv W bb nOut hlins hswvs
  obtain ⟨inner, hin, hins, _⟩ := multiAct_spec nOut Wa scaled [W, bb] hscs
  obtain ⟨t, hcat, hcats⟩ :=
    catLast_spec x inner W bb nIn nOut hx (hins.trans hscs)
  refine ⟨t, ?_, hcats⟩
  show (linearFwd nIn nOut Wl x >>= fun lin =>
    indexNoneNone sw >>= fun swv =>
    tmul lin swv >>= fun scaled =>
    multiActForward nOut Wa scaled >>= fun inner =>
    catLast x inner) = some t
  rw [hlin, some_bind_eq, hswv, some_bind_eq]
  have hsc2 : tmul lin swv = some scaled := hsc
  rw [hsc2, some_bind_eq, hin, some_bind_eq]
  exact hcat

theorem blocks_fold_spec (sw : Tensor) (W bb : ℕ) (hsw : sw.shape = [W]) :
    ∀ (outs : List ℕ) (k nIn : ℕ) (wf : ℕ → (ℕ → ℕ → ℝ) × (ℕ → ℕ → ℝ))
      (x : Tensor), x.shape = [W, bb, nIn] →
      ∃ t, (buildBlocks wf k nIn outs).foldlM (blockStep sw) x = some t ∧
        t.shape = [W, bb, nIn + outs.sum] := by
  intro outs
  induction outs with
  | nil =>
    intro k nIn wf x hx
    refine ⟨x, rfl, ?_⟩
    rw [hx]
    simp
  | cons o rest ih =>
    intro k nIn wf x hx
    obtain ⟨t1, h1, h1s⟩ :=
      concatLayer_spec nIn o (wf k).1 (wf k).2 sw x W bb hsw hx
    obtain ⟨t, h2, h2s⟩ := ih (k + 1) (nIn + o) wf t1 h1s
    refine ⟨t, ?_, ?_⟩
    · rw [show buildBlocks wf k nIn (o :: rest) =
        (⟨nIn, o, (wf k).1, (wf k).2⟩ : Block) ::
          buildBlocks wf (k + 1) (nIn + o) rest from rfl]
      rw [List.foldlM_cons]
      have hb : blockStep sw x (⟨nIn, o, (wf k).1, (wf k).2⟩ : Block) = some t1 := h1
      rw [hb, some_bind_eq]
      exact h2
    · rw [h2s]
      simp [Nat.add_assoc]

theorem buildBlocks_get (wf : ℕ → (ℕ → ℕ → ℝ) × (ℕ → ℕ → ℝ)) :
    ∀ (outs : List ℕ) (k nIn i : ℕ) (b : Block),
      (buildBlocks wf k nIn outs)[i]? = some b →
      b.nIn = nIn + (outs.take i).sum ∧ b.nOut = outs.getD i 0 := by
  intro outs
  induction outs with
  | nil =>
    intro k nIn i b h
    simp [buildBlocks] at h
  | cons o rest ih =>
    intro k nIn i b h
    cases i with
    | zero =>
      rw [show buildBlocks wf k nIn (o :: rest) =
        (⟨nIn, o, (wf k).1, (wf k).2⟩ : Block) ::
          buildBlocks wf (k + 1) (nIn + o) rest from rfl,
        List.getElem?_cons_zero] at h
      cases h
      simp
    | succ i =>
      rw [show buildBlocks wf k nIn (o :: rest) =
        (⟨nIn, o, (wf k).1, (wf k).2⟩ : Block) ::
          buildBlocks wf (k + 1) (nIn + o) rest from rfl,
        List.getElem?_cons_succ] at h
      obtain ⟨h1, h2⟩ := ih (k + 1) (nIn + o) i b h
      constructor
      · rw [h1]
        simp [Nat.add_assoc]
      · rw [h2]
        rfl

theorem buildBlocks_take (wf : ℕ → (ℕ → ℕ → ℝ) × (ℕ → ℕ → ℝ)) :
    ∀ (outs : List ℕ) (k nIn j : ℕ),
      (buildBlocks wf k nIn outs).take j = buildBlocks wf k nIn (outs.take j) := by
  intro outs
  induction outs with
  | nil =>
    intro k nIn j
    simp [buildBlocks]
  | cons o rest ih =>
    intro k nIn j
    cases j with
    | zero => rfl
    | succ j =>
      rw [show buildBlocks wf k nIn (o :: rest) =
        (⟨nIn, o, (wf k).1, (wf k).2⟩ : Block) ::
          buildBlocks wf (k + 1) (nIn + o) rest from rfl]
      rw [List.take_succ_cons, ih]
      rfl

/-! Theorems. -/

/-- Constant zero weights, used to instantiate constructions concretely. -/
def wf0 : ℕ → (ℕ → ℕ → ℝ) × (ℕ → ℕ → ℝ) :=
  fun _ => (fun _ _ => 0, fun _ _ => 0)

/-- C2: every entry of a `TertiaryLinear` effective weight lies in
{-1, 0, 1}; an entry is 0 exactly when the corresponding continuous entry
has absolute value ≤ 0.4; and otherwise it is +1 or -1 matching the sign
of the continuous entry (entry above the threshold gives +1, entry below
the negated threshold gives -1). -/
theorem C2_ternary_effective_weight (w : ℕ → ℕ → ℝ) (i j : ℕ) :
    (effective_weight_tertiary w i j = -1 ∨ effective_weight_tertiary w i j = 0 ∨
      effective_weight_tertiary w i j = 1) ∧
    (effective_weight_tertiary w i j = 0 ↔ |w i j| ≤ 0.4) ∧
    (0.4 < w i j → effective_weight_tertiary w i j = 1) ∧
    (w i j < -0.4 → effective_weight_tertiary w i j = -1) := by
  have hpos : 0.4 < w i j → effective_weight_tertiary w i j = 1 := by
    intro h
    unfold effective_weight_tertiary hardshrink tsign
    rw [if_pos (Or.inl h), if_pos (lt_trans (by norm_num) h)]
  have hneg : w i j < -0.4 → effective_weight_tertiary w i j = -1 := by
    intro h
    have h0 : w i j < 0 := lt_trans h (by norm_num)
    unfold effective_weight_tertiary hardshrink tsign
    rw [if_pos (Or.inr h), if_neg (not_lt.mpr h0.le), if_pos h0]
  have hzero : |w i j| ≤ 0.4 → effective_weight_tertiary w i j = 0 := by
    intro h
    obtain ⟨h1, h2⟩ := abs_le.mp h
    have hc : ¬((0.4 : ℝ) < w i j ∨ w i j < -(0.4 : ℝ)) := by
      push_neg
      exact ⟨h2, h1⟩
    unfold effective_weight_tertiary hardshrink tsign
    rw [if_neg hc, if_neg (lt_irrefl 0), if_neg (lt_irrefl 0)]
  by_cases habs : |w i j| ≤ 0.4
  · refine ⟨Or.inr (Or.inl (hzero habs)), ⟨fun _ => habs, fun _ => hzero habs⟩,
      ?_, ?_⟩
    · intro h
      have := le_abs_self (w i j)
      linarith
    · intro h
      have := neg_le_abs (w i j)
      linarith
  · rcases (lt_abs.mp (not_le.mp habs)) with hp | hn
    · refine ⟨Or.inr (Or.inr (hpos hp)), ⟨?_, fun h2 => absurd h2 habs⟩,
        fun _ => hpos hp, fun hn2 => absurd hn2 (by linarith)⟩
      intro h0
      rw [hpos hp] at h0
      exact absurd h0 (by norm_num)
    · have hn2 : w i j < -0.4 := by linarith
      refine ⟨Or.inl (hneg hn2), ⟨?_, fun h2 => absurd h2 habs⟩,
        fun hp2 => absurd hp2 (by linarith), fun _ => hneg hn2⟩
      intro h0
      rw [hneg hn2] at h0
      exact absurd h0 (by norm_num)

/-- C3: `discretize_weight` stores the continuous weight in the snapshot
buffer and overwrites the continuous weight with the effective weight
computed from it; no separate gradient path exists — a subsequent forward
pass of either concrete layer simply reads the overwritten continuous
weight, i.e. computes with the effective weight. -/
theorem C3_discretize_overwrites {α : Type} (eff : α → α) (s : DState α)
    (nIn nOut : ℕ) (x : Tensor) (st sa : DState (ℕ → ℕ → ℝ)) :
    (discretize_weight eff s).stored_weight = s.weight ∧
    (discretize_weight eff s).weight = eff s.weight ∧
    linearFwd nIn nOut (discretize_weight effective_weight_tertiary st).weight x =
      linearFwd nIn nOut (effective_weight_tertiary st.weight) x ∧
    multiActForward nOut (discretize_weight effective_weight_multi sa).weight x =
      multiActForward nOut (effective_weight_multi sa.weight) x :=
  ⟨rfl, rfl, rfl, rfl⟩

/-- C4: `discretize_weight` immediately followed by `restore_weight` is
the identity on the continuous weight, for any effective-weight map and in
particular for both concrete layers. -/
theorem C4_discretize_restore_roundtrip {α : Type} (eff : α → α) (s : DState α)
    (st sa : DState (ℕ → ℕ → ℝ)) :
    (restore_weight (discretize_weight eff s)).weight = s.weight ∧
    (restore_weight (discretize_weight effective_weight_tertiary st)).weight =
      st.weight ∧
    (restore_weight (discretize_weight effective_weight_multi sa)).weight =
      sa.weight :=
  ⟨rfl, rfl, rfl⟩

/-- Auxiliary: the running argmax never exceeds the scanned range. -/
theorem argmaxAux_le (w : ℕ → ℝ) (n : ℕ) : argmaxAux w n ≤ n := by
  induction n with
  | zero => exact le_refl 0
  | succ n ih =>
    simp only [argmaxAux]
    split
    · exact le_refl _
    · exact le_trans ih (Nat.le_succ n)

/-- Auxiliary: the running argmax attains the maximum on the scanned range. -/
theorem argmaxAux_max (w : ℕ → ℝ) (n : ℕ) :
    ∀ k, k ≤ n → w k ≤ w (argmaxAux w n) := by
  induction n with
  | zero =>
    intro k hk
    rw [Nat.le_zero.mp hk]
    exact le_refl _
  | succ n ih =>
    intro k hk
    simp only [argmaxAux]
    split
    · rcases Nat.le_succ_iff_eq_or_le.mp hk with h | h
      · rw [h]
      · exact le_trans (ih k h) (le_of_lt (by assumption))
    · rcases Nat.le_succ_iff_eq_or_le.mp hk with h | h
      · rw [h]; exact not_lt.mp (by assumption)
      · exact ih k h

/-- Auxiliary: every index before the running argmax is strictly smaller
(the first maximal index wins ties). -/
theorem argmaxAux_first (w : ℕ → ℝ) (n : ℕ) :
    ∀ k, k < argmaxAux w n → w k < w (argmaxAux w n) := by
  induction n with
  | zero =>
    intro k hk
    exact absurd hk (Nat.not_lt_zero k)
  | succ n ih =>
    intro k hk
    simp only [argmaxAux] at hk ⊢
    split
    · rename_i h
      rw [if_pos h] at hk
      exact lt_of_le_of_lt (argmaxAux_max w n k (Nat.lt_succ_iff.mp hk)) h
    · rename_i h
      rw [if_neg h] at hk
      exact ih k hk

/-- C5: for every mixture weight and every output channel `j`, the
effective weight column has a 1 exactly at `argmaxCol`, which lies among
the 5 menu indices, attains the maximum raw coefficient of the column, and
is the first maximal index (everything before it is strictly smaller). -/
theorem C5_multi_effective_one_hot (w : ℕ → ℕ → ℝ) (j : ℕ) :
    argmaxCol w j < 5 ∧
    effective_weight_multi w (argmaxCol w j) j = 1 ∧
    (∀ i, i < 5 → i ≠ argmaxCol w j → effective_weight_multi w i j = 0) ∧
    (∀ k, k < 5 → w k j ≤ w (argmaxCol w j) j) ∧
    (∀ k, k < argmaxCol w j → w k j < w (argmaxCol w j) j) := by
  refine ⟨Nat.lt_succ_of_le (argmaxAux_le _ 4), ?_, ?_, ?_, ?_⟩
  · simp [effective_weight_multi]
  · intro i _ hne
    simp [effective_weight_multi, hne]
  · intro k hk
    exact argmaxAux_max (fun k => w k j) 4 k (Nat.lt_succ_iff.mp hk)
  · intro k hk
    exact argmaxAux_first (fun k => w k j) 4 k hk

/-- C6 counterexample: a model built from a single layer size is
constructed successfully — construction with fewer than 2 layer sizes does
not necessarily fail. -/
theorem C6_counterexample : (modelInit wf0 [7]).isSome = true := rfl

/-- C6 (amended): construction with an empty layer-size sequence fails at
construction time (the read of `layer_sizes[0]`), but construction with
exactly one layer size succeeds — the length ≥ 2 requirement is not
validated at construction. -/
theorem C6_construction_validation (wf : ℕ → (ℕ → ℕ → ℝ) × (ℕ → ℕ → ℝ)) :
    modelInit wf [] = none ∧ ∀ s0 : ℕ, (modelInit wf [s0]).isSome = true :=
  ⟨rfl, fun _ => rfl⟩

/-- C9: `clip_weight` is idempotent for both concrete layers: the
`TertiaryLinear` clamp to [-1, 1], and (over exact real arithmetic) the
`MultiActivationModule` per-column L2 renormalization. -/
theorem C9_clip_idempotent (w : ℕ → ℕ → ℝ) :
    clip_weight_tertiary (clip_weight_tertiary w) = clip_weight_tertiary w ∧
    clip_weight_multi (clip_weight_multi w) = clip_weight_multi w := by
  constructor
  · funext i j
    unfold clip_weight_tertiary
    have h1 : max (-1) (min 1 (w i j)) ≤ 1 := max_le (by norm_num) (min_le_left _ _)
    have h2 : (-1 : ℝ) ≤ max (-1) (min 1 (w i j)) := le_max_left _ _
    rw [min_eq_right h1, max_eq_right h2]
  · funext i j
    show (w i j / Real.sqrt (∑ k ∈ Finset.range 5, w k j ^ 2)) /
        Real.sqrt (∑ k ∈ Finset.range 5,
          (w k j / Real.sqrt (∑ l ∈ Finset.range 5, w l j ^ 2)) ^ 2) =
      w i j / Real.sqrt (∑ k ∈ Finset.range 5, w k j ^ 2)
    have hSnn : (0 : ℝ) ≤ ∑ k ∈ Finset.range 5, w k j ^ 2 :=
      Finset.sum_nonneg (fun k _ => sq_nonneg _)
    by_cases hS0 : ∑ k ∈ Finset.range 5, w k j ^ 2 = 0
    · rw [hS0, Real.sqrt_zero]
      simp [div_zero]
    · have hone : ∑ k ∈ Finset.range 5,
          (w k j / Real.sqrt (∑ l ∈ Finset.range 5, w l j ^ 2)) ^ 2 = 1 := by
        simp only [div_pow, Real.sq_sqrt hSnn, ← Finset.sum_div]
        exact div_self hS0
      rw [hone, Real.sqrt_one, div_one]

/-- Shared-weight tensor of shape [1] used for concrete instances. -/
def swC1 : Tensor := ⟨[1], fun _ => 1⟩

/-- A 2-D batch input of shape [2, 4] (the shape the claim C1 speaks of). -/
def xC1bad : Tensor := ⟨[2, 4], fun _ => 0⟩

/-- A 3-D input of shape [1, 1, 4] (weight-sample dimension in front). -/
def xC1good : Tensor := ⟨[1, 1, 4], fun _ => 0⟩

/-- The model constructed from layer sizes (4, 3, 2) with zero weights. -/
def mC1 : ModelState := ⟨[4, 3, 2], buildBlocks wf0 0 4 [3, 2]⟩

/-- C1 counterexample: on the model with layer sizes (4, 3, 2) and a 2-D
input of shape [batch, 4] = [2, 4], `forward` does not return a softmax
tensor of shape [2, 2] — it raises a shape error (`none`): multiplying the
2-D linear output by `shared_weight[:, None, None]` broadcasts to a 3-D
tensor, which cannot be concatenated with the 2-D input. -/
theorem C1_counterexample :
    modelInit wf0 [4, 3, 2] = some mC1 ∧ modelForward swC1 mC1 xC1bad = none :=
  ⟨rfl, rfl⟩

/-- C1 (amended): for the model with layer sizes (4, 3, 2), a 1-D shared
weight of shape [W] and a 3-D input of shape [W, batch, 4], `forward`
returns a tensor of shape [W, batch, 2] in which all entries are
non-negative and every row sums to 1. -/
theorem C1_softmax_output (wf : ℕ → (ℕ → ℕ → ℝ) × (ℕ → ℕ → ℝ))
    (m : ModelState) (hm : modelInit wf [4, 3, 2] = some m) (W bb : ℕ)
    (sw x : Tensor) (hsw : sw.shape = [W]) (hx : x.shape = [W, bb, 4]) :
    ∃ t, modelForward sw m x = some t ∧ t.shape = [W, bb, 2] ∧
      ∀ a b : ℕ, (∀ c : ℕ, 0 ≤ t.data [a, b, c]) ∧
        ∑ c ∈ Finset.range 2, t.data [a, b, c] = 1 := by
  have hm2 : m = ⟨[4, 3, 2], buildBlocks wf 0 4 [3, 2]⟩ :=
    (Option.some.inj hm).symm
  subst hm2
  obtain ⟨u, hu, hus⟩ := blocks_fold_spec sw W bb hsw [3, 2] 0 4 wf x hx
  have hus9 : u.shape = [W, bb, 9] := hus
  obtain ⟨v, hv, hvs⟩ := sliceLast_shape u W bb 9 2 hus9
  have hvs2 : v.shape = [W, bb, 2] := hvs
  obtain ⟨t, ht, hts, hrows⟩ := softmaxLast_rows v W bb 2 (by norm_num) hvs2
  refine ⟨t, ?_, hts, hrows⟩
  show ((buildBlocks wf 0 4 [3, 2]).foldlM (blockStep sw) x >>= fun out =>
    sliceLast 2 out >>= fun sliced => softmaxLast sliced) = some t
  rw [hu, some_bind_eq, hv, some_bind_eq]
  exact ht

/-- C1 witness: the amended statement instantiated with zero weights,
W = 1, batch = 1. -/
theorem C1_witness :
    ∃ t, modelForward swC1 mC1 xC1good = some t ∧ t.shape = [1, 1, 2] ∧
      ∀ a b : ℕ, (∀ c : ℕ, 0 ≤ t.data [a, b, c]) ∧
        ∑ c ∈ Finset.range 2, t.data [a, b, c] = 1 :=
  C1_softmax_output wf0 mC1 rfl 1 1 swC1 xC1good rfl rfl

/-- C7: for a network built from layer sizes (s0 :: rest), block k
(0-indexed) has input width s0 plus the sum of the previous output widths
and output width rest[k]; and running the first k blocks on a well-shaped
input yields a feature tensor whose channel width is s0 plus the sum of
the first k output widths (growing concatenation). -/
theorem C7_running_width (wf : ℕ → (ℕ → ℕ → ℝ) × (ℕ → ℕ → ℝ)) (s0 : ℕ)
    (rest : List ℕ) (m : ModelState) (hm : modelInit wf (s0 :: rest) = some m) :
    (∀ i b, m.blocks[i]? = some b →
      b.nIn = s0 + (rest.take i).sum ∧ b.nOut = rest.getD i 0) ∧
    ∀ (k W bb : ℕ) (sw x : Tensor), sw.shape = [W] → x.shape = [W, bb, s0] →
      ∃ t, (m.blocks.take k).foldlM (blockStep sw) x = some t ∧
        t.shape = [W, bb, s0 + (rest.take k).sum] := by
  have hm2 : m = ⟨s0 :: rest, buildBlocks wf 0 s0 rest⟩ :=
    (Option.some.inj hm).symm
  subst hm2
  constructor
  · intro i b h
    exact buildBlocks_get wf rest 0 s0 i b h
  · intro k W bb sw x hsw hx
    show ∃ t, ((buildBlocks wf 0 s0 rest).take k).foldlM (blockStep sw) x =
      some t ∧ t.shape = [W, bb, s0 + (rest.take k).sum]
    rw [buildBlocks_take wf rest 0 s0 k]
    exact blocks_fold_spec sw W bb hsw (rest.take k) 0 s0 wf x hx

/-- C7 witness: the (4, 3, 2) model with zero weights; after the first
block the feature width is 4 + 3 = 7. -/
theorem C7_witness :
    ∃ t, (mC1.blocks.take 1).foldlM (blockStep swC1) xC1good = some t ∧
      t.shape = [1, 1, 7] :=
  (C7_running_width wf0 4 [3, 2] mC1 rfl).2 1 1 1 swC1 xC1good rfl rfl

/-- C8: `MultiActivationModule.forward` on an input whose last dimension
is `n_out` preserves the shape and computes, entrywise, the sum over the
menu of each activation applied to the entry times the function's
coefficient for that output channel, in the fixed menu order relu,
sigmoid, tanh, gaussian, step. -/
theorem C8_multiact_forward (n : ℕ) (Wa : ℕ → ℕ → ℝ) (x : Tensor)
    (p : List ℕ) (hx : x.shape = p ++ [n]) :
    ∃ t, multiActForward n Wa x = some t ∧ t.shape = x.shape ∧
      ∀ idx, validIdx x.shape idx → t.data idx =
        ∑ i ∈ Finset.range 5,
          (funcsList.getD i id) (x.data idx) * Wa i (idx.getLastD 0) := by
  obtain ⟨t, ht, hts, htd⟩ := multiAct_spec n Wa x p hx
  refine ⟨t, ht, hts, ?_⟩
  intro idx hv
  rw [htd idx hv]
  rw [Finset.sum_range_succ, Finset.sum_range_succ, Finset.sum_range_succ,
    Finset.sum_range_succ, Finset.sum_range_succ, Finset.sum_range_zero,
    zero_add]
  rfl

/-- C8 witness: a concrete input of shape [2, 3] with n_out = 3. -/
theorem C8_witness :
    ∃ t, multiActForward 3 (fun _ _ => 1) (⟨[2, 3], fun _ => 0⟩ : Tensor) =
        some t ∧
      t.shape = (⟨[2, 3], fun _ => 0⟩ : Tensor).shape ∧
      ∀ idx, validIdx (⟨[2, 3], fun _ => 0⟩ : Tensor).shape idx →
        t.data idx = ∑ i ∈ Finset.range 5,
          (funcsList.getD i id) ((⟨[2, 3], fun _ => 0⟩ : Tensor).data idx) *
            (fun _ _ => (1 : ℝ)) i (idx.getLastD 0) :=
  C8_multiact_forward 3 (fun _ _ => 1) (⟨[2, 3], fun _ => 0⟩ : Tensor) [2] rfl

/-- C10: if some output channel's coefficient column of a
`MultiActivationModule` is entirely zero — as after fresh construction with
the all-zero init — `clip_weight` divides that column by a zero L2 norm
with no guard, and every entry of that column becomes NaN. -/
theorem C10_clip_zero_column_nan (w : ℕ → ℕ → ℝ) (j : ℕ)
    (hz : ∀ k, k < 5 → w k j = 0) :
    ∀ i, i < 5 → clip_weight_multi_fp w i j = FpVal.nan := by
  intro i hi
  have hS : ∑ k ∈ Finset.range 5, w k j ^ 2 = 0 :=
    Finset.sum_eq_zero (fun k hk => by
      rw [hz k (Finset.mem_range.mp hk)]; ring)
  unfold clip_weight_multi_fp fpDivR
  rw [hS, Real.sqrt_zero, hz i hi]
  simp

/-- C10 witness: on the freshly constructed all-zero mixture weight,
`clip_weight` turns entry (0, 0) into NaN. -/
theorem C10_witness :
    clip_weight_multi_fp multiActZeroInit 0 0 = FpVal.nan :=
  C10_clip_zero_column_nan multiActZeroInit 0 (fun _ _ => rfl) 0 (by norm_num)

end

end WannModel
